import Mathlib

/-!
Verification of the SpartanGold blockchain core (account-based ledger with
proof-of-work), shallowly embedded from the JavaScript sources.

Modelling conventions:
* A JavaScript Map is an insertion-ordered association list.  JS Map keys are
  unique; `mset` updates the first matching entry in place and appends fresh
  keys at the end, exactly as JS `Map.set` does.
* Amounts, balances, fees and nonces are JS numbers used as integers; they are
  modelled as `Int` (floating point behaviour is out of scope).
* SHA-256 hashes are not computable in the model.  A block id is
  `hashF b.serialize` for an arbitrary hash function `hashF` supplied as a
  parameter; a transaction id is an opaque string fixed at construction
  (field `id`), standing for the hash of the transaction contents.
* The outcome of cryptographic signature verification is carried by the
  opaque boolean field `sigOk` of a transaction (standing for
  `addressMatchesKey(from, pubKey) && verifySignature(pubKey, id, sig)`).
* Logging, timers and network sends are side effects outside the state; the
  state-transforming behaviour is modelled exactly.
-/

namespace SpartanGold

/-- JS `Map.get`: value of the first entry with the given key, if any. -/
def mget {κ β : Type} [DecidableEq κ] (m : List (κ × β)) (k : κ) : Option β :=
  match m with
  | [] => none
  | p :: rest => if p.1 = k then some p.2 else mget rest k

/-- JS `Map.get(k) || d` on numeric values (the stored values are integers,
for which JS falsiness coincides with being zero, so this agrees with the
source's `|| 0` defaulting). -/
def mgetD {κ β : Type} [DecidableEq κ] (m : List (κ × β)) (k : κ) (d : β) : β :=
  (mget m k).getD d

/-- JS `Map.set`: replace the value of the first entry with the given key,
keeping its position; append the pair if the key is absent. -/
def mset {κ β : Type} [DecidableEq κ] (m : List (κ × β)) (k : κ) (v : β) :
    List (κ × β) :=
  match m with
  | [] => [(k, v)]
  | p :: rest => if p.1 = k then (p.1, v) :: rest else p :: mset rest k v

/-- JS `Map.delete`: remove the first entry with the given key. -/
def mdel {κ β : Type} [DecidableEq κ] (m : List (κ × β)) (k : κ) :
    List (κ × β) :=
  match m with
  | [] => []
  | p :: rest => if p.1 = k then rest else p :: mdel rest k

/-- Sum of all values of the map (JS Maps have unique keys). -/
def msum {κ : Type} (m : List (κ × Int)) : Int :=
  match m with
  | [] => 0
  | p :: rest => p.2 + msum rest

/-- JS truthiness of an optional string (null / undefined / empty string are
falsy). -/
def strTruthy : Option String → Bool
  | none => false
  | some s => !(s == "")

/-- An output of a transaction: an amount of gold and a receiving address
(transaction.js, constructor). -/
structure Output where
  amount : Int
  address : String
deriving DecidableEq, Repr

/-- A SpartanGold transaction (transaction.js).  `id` abstracts the SHA-256
hash of the transaction contents; `sigOk` abstracts the outcome of the two
cryptographic checks performed by `validSignature`. -/
structure Transaction where
  «from» : String
  nonce : Int
  pubKey : String
  sig : Option String
  outputs : List Output
  fee : Int
  data : List (String × String)
  id : String
  sigOk : Bool
deriving DecidableEq, Repr

/-- Transaction.totalOutput: total value of all outputs, including the fee
(the JS reduce starts from `this.fee`). -/
def Transaction.totalOutput (tx : Transaction) : Int :=
  tx.outputs.foldl (fun totalValue o => totalValue + o.amount) tx.fee

/-- Transaction.validSignature: `sig` present, the from address matches the
public key, and the signature verifies (the last two abstracted by `sigOk`). -/
def Transaction.validSignature (tx : Transaction) : Bool :=
  tx.sig.isSome && tx.sigOk

/-- A SpartanGold block (block.js).  `proof` is absent until mining sets it.
`balances` and `nextNonce` are the derived state; `transactions` preserves
insertion order like the JS Map. -/
structure Block where
  prevBlockHash : Option String
  target : Nat
  balances : List (String × Int)
  nextNonce : List (String × Int)
  transactions : List (String × Transaction)
  chainLength : Nat
  timestamp : Nat
  rewardAddr : Option String
  coinbaseReward : Int
  proof : Option Int
deriving DecidableEq, Repr

/-- Block.isGenesisBlock: true when the chain length is 0. -/
def Block.isGenesisBlock (b : Block) : Bool :=
  b.chainLength == 0

/-- Block.balanceOf: `this.balances.get(addr) || 0`. -/
def Block.balanceOf (b : Block) (addr : String) : Int :=
  mgetD b.balances addr 0

/-- Block.totalRewards: coinbase reward plus the fees of all transactions in
the block (JS reduce with initial value `this.coinbaseReward`). -/
def Block.totalRewards (b : Block) : Int :=
  b.transactions.foldl (fun reward p => reward + p.2.fee) b.coinbaseReward

/-- Block.contains: membership test by transaction id. -/
def Block.contains (b : Block) (tx : Transaction) : Bool :=
  (mget b.transactions tx.id).isSome

/-- Transaction.sufficientFunds: `this.totalOutput() <= block.balances.get(this.from)`.
NOTE: the source reads the Map directly, with no defaulting; in JS a
comparison with `undefined` is always false, so an absent sender is rejected
even when the total output is zero (or negative). -/
def Transaction.sufficientFunds (tx : Transaction) (block : Block) : Bool :=
  match mget block.balances tx.«from» with
  | none => false
  | some bal => tx.totalOutput ≤ bal

/-- Block.addTransaction: validity checks in source order, then the atomic
state update.  Returns the JS boolean result together with the resulting
block (the input block unchanged on rejection). -/
def Block.addTransaction (b : Block) (tx : Transaction) : Bool × Block :=
  if (mget b.transactions tx.id).isSome then (false, b)
  else if tx.sig.isNone then (false, b)
  else if !tx.validSignature then (false, b)
  else if !(tx.sufficientFunds b) then (false, b)
  else
    let nonce : Int := mgetD b.nextNonce tx.«from» 0
    if tx.nonce < nonce then (false, b)
    else if nonce < tx.nonce then (false, b)
    else
      let b1 : Block := { b with nextNonce := mset b.nextNonce tx.«from» (nonce + 1) }
      let b2 : Block := { b1 with transactions := mset b1.transactions tx.id tx }
      let senderBalance : Int := b2.balanceOf tx.«from»
      let b3 : Block := { b2 with balances := mset b2.balances tx.«from» (senderBalance - tx.totalOutput) }
      let credited : List (String × Int) :=
        tx.outputs.foldl (fun m o => mset m o.address (o.amount + mgetD m o.address 0)) b3.balances
      let b4 : Block := { b3 with balances := credited }
      (true, b4)

/-- The serialised form of a block (Block.toJSON): a genesis block serialises
its chain length, timestamp and balances; any other block serialises chain
length, timestamp, the ordered transaction entries, the previous block hash,
the proof and the reward address.  Derived state (balances, nextNonce) is
omitted for non-genesis blocks. -/
inductive SerBlock where
  | genesis (chainLength : Nat) (timestamp : Nat) (balances : List (String × Int))
  | normal (chainLength : Nat) (timestamp : Nat)
      (transactions : List (String × Transaction))
      (prevBlockHash : Option String) (proof : Option Int)
      (rewardAddr : Option String)
deriving DecidableEq, Repr

/-- Block.toJSON / Block.serialize, branching on isGenesisBlock. -/
def Block.serialize (b : Block) : SerBlock :=
  if b.isGenesisBlock then .genesis b.chainLength b.timestamp b.balances
  else .normal b.chainLength b.timestamp b.transactions b.prevBlockHash b.proof b.rewardAddr

/-- Block.id = hash(serialize).  The hash function is a parameter of the
model (SHA-256 is not computable here); collision freedom is never assumed,
only that equal serialisations hash equally, which holds for any function. -/
def blockId (hashF : SerBlock → String) (b : Block) : String :=
  hashF b.serialize

/-- The Block constructor (block.js lines 26-67).  `prevBlock` is optional;
when present, balances and nextNonce are cloned from it and the previous
block's miner is credited with that block's total rewards.  `timestamp`
stands for Date.now(). -/
def Block.make (hashF : SerBlock → String) (rewardAddr : Option String)
    (prevBlock : Option Block) (target : Nat) (coinbaseReward : Int)
    (timestamp : Nat) : Block :=
  let balances0 : List (String × Int) :=
    match prevBlock with
    | some p => p.balances
    | none => []
  let balances : List (String × Int) :=
    match prevBlock with
    | some p =>
      if strTruthy p.rewardAddr then
        let winner := p.rewardAddr.getD ""
        mset balances0 winner (mgetD balances0 winner 0 + p.totalRewards)
      else balances0
    | none => balances0
  { prevBlockHash := prevBlock.map (fun p => blockId hashF p)
    target := target
    balances := balances
    nextNonce :=
      match prevBlock with
      | some p => p.nextNonce
      | none => []
    transactions := []
    chainLength :=
      match prevBlock with
      | some p => p.chainLength + 1
      | none => 0
    timestamp := timestamp
    rewardAddr := rewardAddr
    coinbaseReward := coinbaseReward
    proof := none }

/-- Blockchain.makeGenesis restricted to its ledger content: a fresh genesis
block whose balances map is populated from the starting balances. -/
def makeGenesis (hashF : SerBlock → String) (target : Nat) (coinbaseReward : Int)
    (timestamp : Nat) (startingBalances : List (String × Int)) : Block :=
  let g := Block.make hashF none none target coinbaseReward timestamp
  { g with balances := startingBalances.foldl (fun m p => mset m p.1 p.2) g.balances }

/-- The re-adding loop of Block.rerun: apply addTransaction to each stored
transaction in order, stopping with false at the first failure. -/
def Block.rerunAdd : List Transaction → Block → Bool × Block
  | [], b => (true, b)
  | tx :: rest, b =>
    let r := b.addTransaction tx
    if r.1 then Block.rerunAdd rest r.2 else (false, r.2)

/-- Block.rerun: reset balances and nextNonce to the parent's, credit the
parent's miner with the parent's total rewards, then re-apply every stored
transaction. -/
def Block.rerun (b : Block) (prevBlock : Block) : Bool × Block :=
  let b1 : Block := { b with balances := prevBlock.balances, nextNonce := prevBlock.nextNonce }
  let winner := prevBlock.rewardAddr.getD ""
  let winnerBalance := b1.balanceOf winner
  let b2 : Block :=
    if strTruthy prevBlock.rewardAddr then
      { b1 with balances := mset b1.balances winner (winnerBalance + prevBlock.totalRewards) }
    else b1
  let txs := b2.transactions.map (fun p => p.2)
  let b3 : Block := { b2 with transactions := [] }
  Block.rerunAdd txs b3

/-- Blockchain.CONFIRMED_DEPTH. -/
def CONFIRMED_DEPTH : Nat := 6

/-- The state of a participant (Client in tcpMiner.js) once its genesis block
has been installed: the block store, the pending-blocks index (keyed by the
missing parent id, which the source uses directly as a Map key), the chain
head, the last confirmed block and the pending outgoing transactions. -/
structure ClientState where
  blocks : List (String × Block)
  pendingBlocks : List (Option String × List Block)
  lastBlock : Block
  lastConfirmedBlock : Block
  pendingOutgoingTransactions : List (String × Transaction)
deriving DecidableEq, Repr

/-- The walk of Client.setLastConfirmed from the head back to the confirmed
height.  The fuel argument (the head's chain length suffices) makes the JS
while loop structurally terminating; none models the TypeError the source
would raise if an ancestor were missing from the block store. -/
def walkBack (blocks : List (String × Block)) (confirmedHeight : Nat) :
    Nat → Block → Option Block
  | 0, b => if b.chainLength ≤ confirmedHeight then some b else none
  | fuel + 1, b =>
    if b.chainLength ≤ confirmedHeight then some b
    else
      match b.prevBlockHash.bind (fun h => mget blocks h) with
      | some p => walkBack blocks confirmedHeight fuel p
      | none => none

/-- Client.setLastConfirmed: walk back CONFIRMED_DEPTH parents (clamped at
genesis), set lastConfirmedBlock, and drop every pending outgoing transaction
contained in the new last confirmed block. -/
def ClientState.setLastConfirmed (st : ClientState) : ClientState :=
  let confirmedBlockHeight := st.lastBlock.chainLength - CONFIRMED_DEPTH
  match walkBack st.blocks confirmedBlockHeight st.lastBlock.chainLength st.lastBlock with
  | some blk =>
    { st with lastConfirmedBlock := blk
              pendingOutgoingTransactions :=
      st.pendingOutgoingTransactions.filter (fun p => !(blk.contains p.2)) }
  | none => st

/-- Client.receiveBlock (tcpMiner.js lines 399-458), parameterised by the
hash function and by the outcome of Block.hasValidProof (a pure function of
the block, abstracted because it compares a SHA-256 hash against the target).
The fuel bounds the recursion through unstuck pending blocks; the returned
option is the JS return value (null or the accepted, rerun block).
Network sends (requestMissingBlock) are effects outside the state. -/
def receiveBlockF (hashF : SerBlock → String) (validProof : Block → Bool) :
    Nat → ClientState → Block → Option Block × ClientState
  | 0, st, _ => (none, st)
  | fuel + 1, st, block =>
    if (mget st.blocks (blockId hashF block)).isSome then (none, st)
    else if !(validProof block) && !block.isGenesisBlock then (none, st)
    else
      match block.prevBlockHash.bind (fun h => mget st.blocks h), block.isGenesisBlock with
      | none, false =>
        let stuck := ((mget st.pendingBlocks block.prevBlockHash).getD []) ++ [block]
        (none, { st with pendingBlocks := mset st.pendingBlocks block.prevBlockHash stuck })
      | prevOpt, _ =>
        let res : Bool × Block :=
          if block.isGenesisBlock then (true, block)
          else
            match prevOpt with
            | some p => block.rerun p
            | none => (false, block)
        if !res.1 then (none, st)
        else
          let b2 := res.2
          let bid := blockId hashF b2
          let st1 : ClientState := { st with blocks := mset st.blocks bid b2 }
          let st2 : ClientState :=
            if st1.lastBlock.chainLength < b2.chainLength then
              ClientState.setLastConfirmed { st1 with lastBlock := b2 }
            else st1
          let unstuck := (mget st2.pendingBlocks (some bid)).getD []
          let st3 : ClientState := { st2 with pendingBlocks := mdel st2.pendingBlocks (some bid) }
          let st4 := unstuck.foldl (fun s c => (receiveBlockF hashF validProof fuel s c).2) st3
          (some b2, st4)

/-- The pre-genesis view of a Client (tcpMiner.js constructor): before
setGenesisBlock runs, lastBlock and lastConfirmedBlock are undefined. -/
structure PreClient where
  blocks : List (String × Block)
  lastBlock : Option Block
  lastConfirmedBlock : Option Block
deriving DecidableEq, Repr

/-- Client.setGenesisBlock: throws when a starting block is already set
(modelled by Except.error carrying the JS error message, the state
untouched); otherwise installs the starting block as both heads and stores
it in the block map. -/
def PreClient.setGenesisBlock (hashF : SerBlock → String) (st : PreClient)
    (startingBlock : Block) : Except String PreClient :=
  if st.lastBlock.isSome then
    Except.error "Cannot set genesis block for existing blockchain."
  else
    Except.ok
      { blocks := mset st.blocks (blockId hashF startingBlock) startingBlock
        lastBlock := some startingBlock
        lastConfirmedBlock := some startingBlock }

/-- The Client constructor restricted to its chain state: empty block store,
then setGenesisBlock when a starting block is supplied. -/
def PreClient.init (hashF : SerBlock → String) (startingBlock : Option Block) : PreClient :=
  let st : PreClient := { blocks := [], lastBlock := none, lastConfirmedBlock := none }
  match startingBlock with
  | some sb =>
    match st.setGenesisBlock hashF sb with
    | Except.ok st1 => st1
    | Except.error _ => st
  | none => st

/-- The while loop of Miner.findProof, parameterised by the outcome of
currentBlock.hasValidProof() as a function of the proof counter (the only
block field the loop varies).  Returns the final proof value and the number
of hasValidProof evaluations.  The loop terminates because the proof
strictly increases towards pausePoint. -/
def findProofLoop (hasValid : Int → Bool) (pausePoint : Int) (proof : Int) : Int × Nat :=
  if h : proof < pausePoint then
    if hasValid proof then (proof, 1)
    else
      let r := findProofLoop hasValid pausePoint (proof + 1)
      (r.1, r.2 + 1)
  else (proof, 0)
termination_by (pausePoint - proof).toNat
decreasing_by omega

/-- The observable outcome of one Miner.findProof invocation. -/
structure FindProofOutcome where
  finalProof : Int
  hashEvals : Nat
  schedulesNextMining : Bool
deriving DecidableEq, Repr

/-- Miner.findProof: mine for at most miningRounds attempts starting from the
current proof value, then schedule the next START_MINING via a zero-delay
timer unless oneAndDone is set. -/
def Miner.findProof (hasValid : Int → Bool) (miningRounds : Nat) (proof : Int)
    (oneAndDone : Bool) : FindProofOutcome :=
  let pausePoint := proof + (miningRounds : Int)
  let r := findProofLoop hasValid pausePoint proof
  { finalProof := r.1, hashEvals := r.2, schedulesNextMining := !oneAndDone }

/-- Blockchain.PROOF_FOUND message name. -/
def PROOF_FOUND : String := "PROOF_FOUND"

/-- Blockchain.POST_TRANSACTION message name. -/
def POST_TRANSACTION : String := "POST_TRANSACTION"

/-- FakeNet: the registered clients, keyed by address. -/
structure FakeNet (γ : Type) where
  clients : List (String × γ)

/-- FakeNet.register: register each client of the list under its address. -/
def FakeNet.register {γ : Type} (net : FakeNet γ) (clientList : List (String × γ)) :
    FakeNet γ :=
  { clients := clientList.foldl (fun m p => mset m p.1 p.2) net.clients }

/-- FakeNet.broadcast: one sendMessage invocation (address, msg, payload) per
registered address, in registration order, with no exclusion of the sender.
Whether an individual sendMessage later drops or delays its message is
probabilistic and outside this state model. -/
def FakeNet.broadcast {γ δ : Type} (net : FakeNet γ) (msg : String) (o : δ) :
    List (String × String × δ) :=
  net.clients.map (fun p => (p.1, msg, o))

/-- Miner.announceProof: broadcast the current block with PROOF_FOUND. -/
def Miner.announceProof {γ : Type} (net : FakeNet γ) (currentBlock : Block) :
    List (String × String × Block) :=
  net.broadcast PROOF_FOUND currentBlock

/-- Total amount paid to a given address by the outputs of a transaction. -/
def outputsTo : List Output → String → Int
  | [], _ => 0
  | o :: rest, a => (if o.address = a then o.amount else 0) + outputsTo rest a

/-- Sum of the output amounts of a transaction (without the fee). -/
def sumAmounts : List Output → Int
  | [] => 0
  | o :: rest => o.amount + sumAmounts rest

/-- All values stored in an integer-valued map are non-negative. -/
def valsNonneg {κ : Type} (m : List (κ × Int)) : Prop :=
  ∀ p ∈ m, 0 ≤ p.2

instance {κ : Type} (m : List (κ × Int)) : Decidable (valsNonneg m) :=
  inferInstanceAs (Decidable (∀ p ∈ m, 0 ≤ p.2))

/-- The state update performed by Block.addTransaction when every check
passes, written as a single record update (helper for proofs). -/
def applyTx (b : Block) (tx : Transaction) : Block :=
  { b with
    nextNonce := mset b.nextNonce tx.«from» (mgetD b.nextNonce tx.«from» 0 + 1)
    transactions := mset b.transactions tx.id tx
    balances := tx.outputs.foldl (fun m o => mset m o.address (o.amount + mgetD m o.address 0))
      (mset b.balances tx.«from» (mgetD b.balances tx.«from» 0 - tx.totalOutput)) }

/-- A concrete signed transaction used to evaluate the theorems. -/
def txA : Transaction :=
  { «from» := "alice", nonce := 0, pubKey := "pkA", sig := some "sA",
    outputs := [⟨2, "bob"⟩], fee := 1, data := [], id := "tx1", sigOk := true }

/-- A concrete block used to evaluate the theorems. -/
def blockA : Block :=
  { prevBlockHash := some "g", target := 0, balances := [("alice", 10)],
    nextNonce := [], transactions := [], chainLength := 1, timestamp := 0,
    rewardAddr := some "minnie", coinbaseReward := 25, proof := some 0 }

/-- A transaction whose sender is absent from the block balances and whose
total output is zero (no outputs, zero fee). -/
def txEmpty : Transaction :=
  { «from» := "carol", nonce := 0, pubKey := "pkC", sig := some "sC",
    outputs := [], fee := 0, data := [], id := "tx2", sigOk := true }

/-- The block fields untouched by addTransaction and rerun, bundled for frame
lemmas. -/
def blockHeader (b : Block) :
    Nat × Nat × Option String × Option Int × Option String × Int × Nat :=
  (b.chainLength, b.timestamp, b.prevBlockHash, b.proof, b.rewardAddr,
    b.coinbaseReward, b.target)

/-- A concrete genesis block used to evaluate the theorems. -/
def blockG : Block :=
  { prevBlockHash := none, target := 0, balances := [("alice", 10)],
    nextNonce := [], transactions := [], chainLength := 0, timestamp := 0,
    rewardAddr := none, coinbaseReward := 25, proof := none }

/-- A concrete non-genesis block holding one transaction, used to evaluate
the rerun theorems (its transaction is keyed by its id, as blocks built by
addTransaction or deserialisation are). -/
def blockB : Block :=
  { prevBlockHash := some "g", target := 0, balances := [], nextNonce := [],
    transactions := [("tx1", txA)], chainLength := 1, timestamp := 5,
    rewardAddr := some "minnie", coinbaseReward := 25, proof := some 7 }

/-- A concrete client state used to evaluate the receiveBlock theorem. -/
def stC : ClientState :=
  { blocks := [], pendingBlocks := [], lastBlock := blockA,
    lastConfirmedBlock := blockA, pendingOutgoingTransactions := [] }

/-- A concrete pre-genesis client whose starting block is already set. -/
def preC : PreClient :=
  { blocks := [], lastBlock := some blockG, lastConfirmedBlock := some blockG }

/-- A concrete network with two registered participants. -/
def netC : FakeNet Nat :=
  { clients := [("alice", 1), ("minnie", 2)] }

section MapLemmas

variable {κ β : Type} [DecidableEq κ]

theorem mget_mset_self (m : List (κ × β)) (k : κ) (v : β) :
    mget (mset m k v) k = some v := by
  induction m with
  | nil => simp [mset, mget]
  | cons p rest ih =>
    by_cases h : p.1 = k <;> simp [mset, mget, h, ih]

theorem mget_mset_ne (m : List (κ × β)) (k k' : κ) (v : β) (h : k' ≠ k) :
    mget (mset m k v) k' = mget m k' := by
  have hk : ¬ k = k' := fun hh => h hh.symm
  induction m with
  | nil => simp [mset, mget, hk]
  | cons p rest ih =>
    by_cases hp : p.1 = k
    · have hp' : ¬ p.1 = k' := by rw [hp]; exact hk
      simp [mset, mget, hp, hp', hk]
    · simp [mset, mget, hp, ih]

theorem mgetD_mset_self (m : List (κ × β)) (k : κ) (v d : β) :
    mgetD (mset m k v) k d = v := by
  simp [mgetD, mget_mset_self]

theorem mgetD_mset_ne (m : List (κ × β)) (k k' : κ) (v d : β) (h : k' ≠ k) :
    mgetD (mset m k v) k' d = mgetD m k' d := by
  simp [mgetD, mget_mset_ne _ _ _ _ h]

theorem mset_eq_append (m : List (κ × β)) (k : κ) (v : β)
    (h : mget m k = none) : mset m k v = m ++ [(k, v)] := by
  induction m with
  | nil => simp [mset]
  | cons p rest ih =>
    by_cases hp : p.1 = k
    · simp [mget, hp] at h
    · simp [mget, hp] at h
      simp [mset, hp, ih h]

theorem msum_mset_some (m : List (κ × Int)) (k : κ) (v w : Int)
    (h : mget m k = some v) : msum (mset m k w) = msum m - v + w := by
  induction m with
  | nil => simp [mget] at h
  | cons p rest ih =>
    by_cases hp : p.1 = k
    · simp [mget, hp] at h
      simp only [mset, hp, if_pos, ite_true, msum]
      omega
    · simp only [mget, hp, ite_false, if_neg] at h
      simp only [mset, hp, ite_false, if_neg, msum, ih h]
      omega

theorem msum_append_single (m : List (κ × Int)) (k : κ) (w : Int) :
    msum (m ++ [(k, w)]) = msum m + w := by
  induction m with
  | nil => simp [msum]
  | cons p rest ih =>
    have h1 : msum ((p :: rest) ++ [(k, w)]) = p.2 + msum (rest ++ [(k, w)]) := rfl
    have h2 : msum (p :: rest) = p.2 + msum rest := rfl
    rw [h1, h2, ih]
    omega

theorem msum_mset_none (m : List (κ × Int)) (k : κ) (w : Int)
    (h : mget m k = none) : msum (mset m k w) = msum m + w := by
  rw [mset_eq_append _ _ _ h, msum_append_single]

theorem msum_mset_getD (m : List (κ × Int)) (k : κ) (w : Int) :
    msum (mset m k w) = msum m - mgetD m k 0 + w := by
  cases h : mget m k with
  | none =>
    rw [msum_mset_none _ _ _ h]
    simp [mgetD, h]
  | some v =>
    rw [msum_mset_some _ _ _ _ h]
    simp [mgetD, h]

theorem valsNonneg_mgetD (m : List (κ × Int)) (k : κ) (h : valsNonneg m) :
    0 ≤ mgetD m k 0 := by
  induction m with
  | nil => simp [mgetD, mget]
  | cons p rest ih =>
    by_cases hp : p.1 = k
    · simpa [mgetD, mget, hp] using h p (by simp)
    · exact (by simpa [mgetD, mget, hp] using ih (fun q hq => h q (by simp [hq])))

theorem valsNonneg_mset (m : List (κ × Int)) (k : κ) (v : Int)
    (hm : valsNonneg m) (hv : 0 ≤ v) : valsNonneg (mset m k v) := by
  induction m with
  | nil => intro p hp; simp [mset] at hp; simp [hp, hv]
  | cons q rest ih =>
    intro p hp
    by_cases hq : q.1 = k
    · simp [mset, hq] at hp
      rcases hp with hp | hp
      · simp [hp, hv]
      · exact hm p (by simp [hp])
    · simp [mset, hq] at hp
      rcases hp with hp | hp
      · exact hm p (by simp [hp])
      · exact ih (fun r hr => hm r (by simp [hr])) p hp

end MapLemmas

section FoldLemmas

theorem foldl_amount_eq (outputs : List Output) (c : Int) :
    outputs.foldl (fun totalValue o => totalValue + o.amount) c = c + sumAmounts outputs := by
  induction outputs generalizing c with
  | nil => simp [sumAmounts]
  | cons o rest ih => simp [sumAmounts, ih]; omega

theorem totalOutput_eq (tx : Transaction) :
    tx.totalOutput = tx.fee + sumAmounts tx.outputs := by
  simp [Transaction.totalOutput, foldl_amount_eq]

theorem credit_foldl_msum (outputs : List Output) (m : List (String × Int)) :
    msum (outputs.foldl (fun m o => mset m o.address (o.amount + mgetD m o.address 0)) m)
      = msum m + sumAmounts outputs := by
  induction outputs generalizing m with
  | nil => simp [sumAmounts]
  | cons o rest ih =>
    simp only [List.foldl_cons, ih, sumAmounts]
    rw [msum_mset_getD]
    omega

theorem credit_foldl_mgetD (outputs : List Output) (m : List (String × Int)) (a : String) :
    mgetD (outputs.foldl (fun m o => mset m o.address (o.amount + mgetD m o.address 0)) m) a 0
      = mgetD m a 0 + outputsTo outputs a := by
  induction outputs generalizing m with
  | nil => simp [outputsTo]
  | cons o rest ih =>
    simp only [List.foldl_cons, ih, outputsTo]
    by_cases ha : o.address = a
    · rw [ha, mgetD_mset_self]
      simp [ha]
      omega
    · have ha' : a ≠ o.address := fun hh => ha hh.symm
      rw [mgetD_mset_ne _ _ _ _ _ ha']
      simp [ha]

theorem credit_foldl_nonneg (outputs : List Output) (m : List (String × Int))
    (hm : valsNonneg m) (ho : ∀ o ∈ outputs, 0 ≤ o.amount) :
    valsNonneg (outputs.foldl (fun m o => mset m o.address (o.amount + mgetD m o.address 0)) m) := by
  induction outputs generalizing m with
  | nil => exact hm
  | cons o rest ih =>
    simp only [List.foldl_cons]
    refine ih _ ?_ (fun q hq => ho q (List.mem_cons_of_mem _ hq))
    refine valsNonneg_mset _ _ _ hm ?_
    have h1 := ho o (List.mem_cons_self _ _)
    have h2 := valsNonneg_mgetD m o.address hm
    omega

end FoldLemmas

section AddTransactionLemmas

theorem sufficientFunds_true (tx : Transaction) (b : Block)
    (h : tx.sufficientFunds b = true) :
    mget b.balances tx.«from» = some (mgetD b.balances tx.«from» 0) ∧
    tx.totalOutput ≤ mgetD b.balances tx.«from» 0 := by
  unfold Transaction.sufficientFunds at h
  cases he : mget b.balances tx.«from» with
  | none => rw [he] at h; simp at h
  | some bal =>
    rw [he] at h
    simp only [decide_eq_true_eq] at h
    simp [mgetD, he, h]

theorem addTransaction_reject (b : Block) (tx : Transaction)
    (h : (mget b.transactions tx.id).isSome = true ∨ tx.sig.isNone = true ∨
      tx.validSignature = false ∨ tx.sufficientFunds b = false ∨
      tx.nonce < mgetD b.nextNonce tx.«from» 0 ∨ mgetD b.nextNonce tx.«from» 0 < tx.nonce) :
    b.addTransaction tx = (false, b) := by
  unfold Block.addTransaction
  by_cases c1 : (mget b.transactions tx.id).isSome = true
  · simp [c1]
  by_cases c2 : tx.sig.isNone = true
  · simp [c1, c2]
  by_cases c3 : tx.validSignature = false
  · simp [c1, c2, c3]
  by_cases c4 : tx.sufficientFunds b = false
  · simp [c1, c2, c3, c4, Bool.not_eq_false] at *
  by_cases c5 : tx.nonce < mgetD b.nextNonce tx.«from» 0
  · simp [c1, c2, c3, c4, c5, Bool.not_eq_false] at *
  by_cases c6 : mgetD b.nextNonce tx.«from» 0 < tx.nonce
  · simp [c1, c2, c3, c4, c5, c6, Bool.not_eq_false] at *
  rcases h with h | h | h | h | h | h <;> simp_all

theorem addTransaction_accept (b : Block) (tx : Transaction)
    (h1 : mget b.transactions tx.id = none)
    (h2 : tx.sig.isNone = false)
    (h3 : tx.validSignature = true)
    (h4 : tx.sufficientFunds b = true)
    (h5 : tx.nonce = mgetD b.nextNonce tx.«from» 0) :
    b.addTransaction tx = (true, applyTx b tx) := by
  unfold Block.addTransaction applyTx
  rw [h1]
  simp [h2, h3, h4, ← h5, Block.balanceOf]

theorem addTransaction_true_conds (b : Block) (tx : Transaction)
    (h : (b.addTransaction tx).1 = true) :
    mget b.transactions tx.id = none ∧ tx.sig.isNone = false ∧ tx.validSignature = true ∧
    tx.sufficientFunds b = true ∧ tx.nonce = mgetD b.nextNonce tx.«from» 0 := by
  by_cases c1 : (mget b.transactions tx.id).isSome = true
  · rw [addTransaction_reject b tx (Or.inl c1)] at h; simp at h
  by_cases c2 : tx.sig.isNone = true
  · rw [addTransaction_reject b tx (Or.inr (Or.inl c2))] at h; simp at h
  by_cases c3 : tx.validSignature = false
  · rw [addTransaction_reject b tx (Or.inr (Or.inr (Or.inl c3)))] at h; simp at h
  by_cases c4 : tx.sufficientFunds b = false
  · rw [addTransaction_reject b tx (Or.inr (Or.inr (Or.inr (Or.inl c4))))] at h; simp at h
  by_cases c5 : tx.nonce < mgetD b.nextNonce tx.«from» 0
  · rw [addTransaction_reject b tx (Or.inr (Or.inr (Or.inr (Or.inr (Or.inl c5)))))] at h
    simp at h
  by_cases c6 : mgetD b.nextNonce tx.«from» 0 < tx.nonce
  · rw [addTransaction_reject b tx (Or.inr (Or.inr (Or.inr (Or.inr (Or.inr c6)))))] at h
    simp at h
  have c2' : tx.sig.isNone = false := by
    cases hs : tx.sig.isNone with
    | false => rfl
    | true => exact absurd hs c2
  refine ⟨by simpa using c1, c2', by simpa using c3, by simpa using c4, by omega⟩

theorem addTransaction_false_unchanged (b : Block) (tx : Transaction)
    (h : (b.addTransaction tx).1 = false) : b.addTransaction tx = (false, b) := by
  by_cases c1 : (mget b.transactions tx.id).isSome = true
  · exact addTransaction_reject b tx (Or.inl c1)
  by_cases c2 : tx.sig.isNone = true
  · exact addTransaction_reject b tx (Or.inr (Or.inl c2))
  by_cases c3 : tx.validSignature = false
  · exact addTransaction_reject b tx (Or.inr (Or.inr (Or.inl c3)))
  by_cases c4 : tx.sufficientFunds b = false
  · exact addTransaction_reject b tx (Or.inr (Or.inr (Or.inr (Or.inl c4))))
  by_cases c5 : tx.nonce < mgetD b.nextNonce tx.«from» 0
  · exact addTransaction_reject b tx (Or.inr (Or.inr (Or.inr (Or.inr (Or.inl c5)))))
  by_cases c6 : mgetD b.nextNonce tx.«from» 0 < tx.nonce
  · exact addTransaction_reject b tx (Or.inr (Or.inr (Or.inr (Or.inr (Or.inr c6)))))
  exfalso
  have c2' : tx.sig.isNone = false := by
    cases hs : tx.sig.isNone with
    | false => rfl
    | true => exact absurd hs c2
  rw [addTransaction_accept b tx (by simpa using c1) c2'
    (by simpa using c3) (by simpa using c4) (by omega)] at h
  simp at h

theorem addTransaction_fields (b : Block) (tx : Transaction) :
    (b.addTransaction tx).2.chainLength = b.chainLength ∧
    (b.addTransaction tx).2.timestamp = b.timestamp ∧
    (b.addTransaction tx).2.prevBlockHash = b.prevBlockHash ∧
    (b.addTransaction tx).2.proof = b.proof ∧
    (b.addTransaction tx).2.rewardAddr = b.rewardAddr ∧
    (b.addTransaction tx).2.coinbaseReward = b.coinbaseReward ∧
    (b.addTransaction tx).2.target = b.target := by
  cases hr : (b.addTransaction tx).1 with
  | false => rw [addTransaction_false_unchanged b tx hr]; simp
  | true =>
    obtain ⟨h1, h2, h3, h4, h5⟩ := addTransaction_true_conds b tx hr
    rw [addTransaction_accept b tx h1 h2 h3 h4 h5]
    simp [applyTx]

theorem addTransaction_true_transactions (b : Block) (tx : Transaction)
    (h : (b.addTransaction tx).1 = true) :
    (b.addTransaction tx).2.transactions = b.transactions ++ [(tx.id, tx)] := by
  obtain ⟨h1, h2, h3, h4, h5⟩ := addTransaction_true_conds b tx h
  rw [addTransaction_accept b tx h1 h2 h3 h4 h5]
  simp [applyTx, mset_eq_append _ _ _ h1]

end AddTransactionLemmas

section RerunLemmas

theorem addTransaction_header (b : Block) (tx : Transaction) :
    blockHeader (b.addTransaction tx).2 = blockHeader b := by
  cases hr : (b.addTransaction tx).1 with
  | false => rw [addTransaction_false_unchanged b tx hr]
  | true =>
    obtain ⟨h1, h2, h3, h4, h5⟩ := addTransaction_true_conds b tx hr
    rw [addTransaction_accept b tx h1 h2 h3 h4 h5]
    rfl

theorem rerunAdd_header (txs : List Transaction) (b : Block) :
    blockHeader (Block.rerunAdd txs b).2 = blockHeader b := by
  induction txs generalizing b with
  | nil => rfl
  | cons tx rest ih =>
    simp only [Block.rerunAdd]
    cases hr : (b.addTransaction tx).1 with
    | false => simp only [hr, Bool.false_eq_true, if_false]; exact addTransaction_header b tx
    | true =>
      simp only [hr, if_true]
      exact (ih _).trans (addTransaction_header b tx)

theorem rerunAdd_true_transactions (txs : List Transaction) (b : Block)
    (h : (Block.rerunAdd txs b).1 = true) :
    (Block.rerunAdd txs b).2.transactions =
      b.transactions ++ txs.map (fun tx => (tx.id, tx)) := by
  induction txs generalizing b with
  | nil => simp [Block.rerunAdd]
  | cons tx rest ih =>
    simp only [Block.rerunAdd] at h ⊢
    cases hr : (b.addTransaction tx).1 with
    | false => simp [hr] at h
    | true =>
      simp only [hr, if_true] at h ⊢
      rw [ih _ h, addTransaction_true_transactions b tx hr]
      simp

theorem map_values_id (l : List (String × Transaction))
    (h : ∀ p ∈ l, p.1 = p.2.id) :
    (l.map (fun p => p.2)).map (fun tx => (tx.id, tx)) = l := by
  induction l with
  | nil => simp
  | cons p rest ih =>
    simp only [List.map_cons]
    rw [ih (fun q hq => h q (List.mem_cons_of_mem _ hq))]
    have hp := h p (List.mem_cons_self _ _)
    obtain ⟨k, tx⟩ := p
    simp only at hp
    simp [hp]

theorem msetFold_nonneg {κ : Type} [DecidableEq κ] (l : List (κ × Int))
    (m : List (κ × Int)) (hm : valsNonneg m) (hl : ∀ p ∈ l, 0 ≤ p.2) :
    valsNonneg (l.foldl (fun m p => mset m p.1 p.2) m) := by
  induction l generalizing m with
  | nil => exact hm
  | cons p rest ih =>
    simp only [List.foldl_cons]
    exact ih _ (valsNonneg_mset _ _ _ hm (hl p (List.mem_cons_self _ _)))
      (fun q hq => hl q (List.mem_cons_of_mem _ hq))

theorem addTransaction_nonneg (b : Block) (tx : Transaction)
    (hb : valsNonneg b.balances) (ho : ∀ o ∈ tx.outputs, 0 ≤ o.amount) :
    valsNonneg (b.addTransaction tx).2.balances := by
  cases hr : (b.addTransaction tx).1 with
  | false => rw [addTransaction_false_unchanged b tx hr]; exact hb
  | true =>
    obtain ⟨h1, h2, h3, h4, h5⟩ := addTransaction_true_conds b tx hr
    rw [addTransaction_accept b tx h1 h2 h3 h4 h5]
    simp only [applyTx]
    refine credit_foldl_nonneg _ _ ?_ ho
    refine valsNonneg_mset _ _ _ hb ?_
    have hsf := (sufficientFunds_true tx b h4).2
    omega

theorem rerunAdd_nonneg (txs : List Transaction) (b : Block)
    (hb : valsNonneg b.balances)
    (ho : ∀ tx ∈ txs, ∀ o ∈ tx.outputs, 0 ≤ o.amount) :
    valsNonneg (Block.rerunAdd txs b).2.balances := by
  induction txs generalizing b with
  | nil => exact hb
  | cons tx rest ih =>
    simp only [Block.rerunAdd]
    have hnn := addTransaction_nonneg b tx hb (ho tx (List.mem_cons_self _ _))
    cases hr : (b.addTransaction tx).1 with
    | false => simp only [hr, Bool.false_eq_true, if_false]; exact hnn
    | true =>
      simp only [hr, if_true]
      exact ih _ hnn (fun q hq => ho q (List.mem_cons_of_mem _ hq))

end RerunLemmas

end SpartanGold

namespace SpartanGold

/-- C1: Block.addTransaction rejects, with the state unchanged, exactly when
one of the six conditions holds (duplicate id, missing signature, invalid
signature, insufficient funds, replayed nonce, out-of-order nonce); otherwise
it returns true, inserts the transaction under its id, debits the sender by
the total output, credits every output address by its amount, and sets the
sender's next nonce to tx.nonce + 1, leaving all other map entries
unchanged. -/
theorem C1_addTransaction_contract (b : Block) (tx : Transaction) :
    (((mget b.transactions tx.id).isSome = true ∨ tx.sig.isNone = true ∨
        tx.validSignature = false ∨ tx.sufficientFunds b = false ∨
        tx.nonce < mgetD b.nextNonce tx.«from» 0 ∨
        mgetD b.nextNonce tx.«from» 0 < tx.nonce) →
      b.addTransaction tx = (false, b)) ∧
    ((mget b.transactions tx.id = none ∧ tx.sig.isNone = false ∧
        tx.validSignature = true ∧ tx.sufficientFunds b = true ∧
        tx.nonce = mgetD b.nextNonce tx.«from» 0) →
      ((b.addTransaction tx).1 = true ∧
        mget (b.addTransaction tx).2.transactions tx.id = some tx ∧
        (∀ k, k ≠ tx.id →
          mget (b.addTransaction tx).2.transactions k = mget b.transactions k) ∧
        (∀ a, mgetD (b.addTransaction tx).2.balances a 0 =
          mgetD b.balances a 0 - (if a = tx.«from» then tx.totalOutput else 0) +
            outputsTo tx.outputs a) ∧
        mgetD (b.addTransaction tx).2.nextNonce tx.«from» 0 = tx.nonce + 1 ∧
        (∀ a, a ≠ tx.«from» →
          mget (b.addTransaction tx).2.nextNonce a = mget b.nextNonce a))) := by
  constructor
  · exact addTransaction_reject b tx
  · rintro ⟨h1, h2, h3, h4, h5⟩
    have hacc := addTransaction_accept b tx h1 h2 h3 h4 h5
    rw [hacc]
    refine ⟨rfl, ?_, ?_, ?_, ?_, ?_⟩
    · simp [applyTx, mget_mset_self]
    · intro k hk
      simp only [applyTx]
      exact mget_mset_ne _ _ _ _ hk
    · intro a
      simp only [applyTx]
      rw [credit_foldl_mgetD]
      by_cases ha : a = tx.«from»
      · rw [ha, mgetD_mset_self]
        simp
      · rw [mgetD_mset_ne _ _ _ _ _ ha]
        simp [ha]
    · simp only [applyTx]
      rw [mgetD_mset_self, h5]
    · intro a ha
      simp only [applyTx]
      exact mget_mset_ne _ _ _ _ ha

/-- Witness for C1: the accept direction evaluated on a concrete block and
transaction. -/
theorem C1_addTransaction_contract_witness :
    (blockA.addTransaction txA).1 = true ∧
    mget (blockA.addTransaction txA).2.transactions txA.id = some txA ∧
    (∀ k, k ≠ txA.id →
      mget (blockA.addTransaction txA).2.transactions k = mget blockA.transactions k) ∧
    (∀ a, mgetD (blockA.addTransaction txA).2.balances a 0 =
      mgetD blockA.balances a 0 - (if a = txA.«from» then txA.totalOutput else 0) +
        outputsTo txA.outputs a) ∧
    mgetD (blockA.addTransaction txA).2.nextNonce txA.«from» 0 = txA.nonce + 1 ∧
    (∀ a, a ≠ txA.«from» →
      mget (blockA.addTransaction txA).2.nextNonce a = mget blockA.nextNonce a) :=
  (C1_addTransaction_contract blockA txA).2
    (by refine ⟨by decide, by decide, by decide, by decide, by decide⟩)

/-- C2 counterexample: a concrete accepted transaction with non-negative
outputs and fee 1.  The balance sum is not conserved by addTransaction: the
fee is debited from the sender but credited to nobody until the next block
pays the miner, so the sum drops by the fee.  This refutes the claim that
the sum is unchanged for every non-negative fee. -/
theorem C2_counterexample :
    (blockA.addTransaction txA).1 = true ∧ 0 ≤ txA.fee ∧
    (∀ o ∈ txA.outputs, 0 ≤ o.amount) ∧
    msum (blockA.addTransaction txA).2.balances ≠ msum blockA.balances := by
  refine ⟨by decide, by decide, by decide, by decide⟩

/-- C2 (amended): for every transaction accepted by Block.addTransaction the
sum of all balances after the addition equals the sum before minus exactly
the transaction fee (so the sum is conserved precisely when the fee is zero;
the fee is paid out only when the next block credits the miner). -/
theorem C2_balance_sum_minus_fee (b : Block) (tx : Transaction)
    (h : (b.addTransaction tx).1 = true) :
    msum (b.addTransaction tx).2.balances = msum b.balances - tx.fee := by
  obtain ⟨h1, h2, h3, h4, h5⟩ := addTransaction_true_conds b tx h
  rw [addTransaction_accept b tx h1 h2 h3 h4 h5]
  simp only [applyTx]
  rw [credit_foldl_msum, msum_mset_getD, totalOutput_eq]
  omega

/-- Witness for C2's amended theorem at a concrete accepted transaction. -/
theorem C2_balance_sum_minus_fee_witness :
    (blockA.addTransaction txA).1 = true ∧
    msum (blockA.addTransaction txA).2.balances = msum blockA.balances - txA.fee :=
  ⟨by decide, C2_balance_sum_minus_fee blockA txA (by decide)⟩

/-- C5 counterexample: a transaction with total output 0 whose sender has no
entry in the block's balances.  The claim says sufficientFunds defaults an
absent sender to balance 0 and therefore returns true here; the source
compares against Map.get's undefined, which makes the comparison false, so
sufficientFunds returns false. -/
theorem C5_counterexample :
    ¬ (txEmpty.sufficientFunds blockA = true ↔
        txEmpty.totalOutput ≤ mgetD blockA.balances txEmpty.«from» 0) := by
  decide

/-- C5 (amended): sufficientFunds returns true iff the sender has an entry in
the block's balances map and the total output is at most that entry; a
sender absent from the map is always rejected, even with total output 0. -/
theorem C5_sufficientFunds_requires_entry (tx : Transaction) (b : Block) :
    tx.sufficientFunds b = true ↔
      ∃ bal, mget b.balances tx.«from» = some bal ∧ tx.totalOutput ≤ bal := by
  unfold Transaction.sufficientFunds
  cases he : mget b.balances tx.«from» with
  | none => simp
  | some bal => simp [he]

/-- C7: an accepted transaction bumps the sender's next nonce by exactly one
and leaves every other sender's next nonce entry unchanged. -/
theorem C7_nextNonce_increment (b : Block) (tx : Transaction)
    (h : (b.addTransaction tx).1 = true) :
    mgetD (b.addTransaction tx).2.nextNonce tx.«from» 0 =
      mgetD b.nextNonce tx.«from» 0 + 1 ∧
    (∀ a, a ≠ tx.«from» →
      mget (b.addTransaction tx).2.nextNonce a = mget b.nextNonce a) := by
  obtain ⟨h1, h2, h3, h4, h5⟩ := addTransaction_true_conds b tx h
  rw [addTransaction_accept b tx h1 h2 h3 h4 h5]
  constructor
  · simp only [applyTx]
    rw [mgetD_mset_self]
  · intro a ha
    simp only [applyTx]
    exact mget_mset_ne _ _ _ _ ha

/-- Witness for C7 at a concrete accepted transaction. -/
theorem C7_nextNonce_increment_witness :
    (blockA.addTransaction txA).1 = true ∧
    (mgetD (blockA.addTransaction txA).2.nextNonce txA.«from» 0 =
      mgetD blockA.nextNonce txA.«from» 0 + 1 ∧
    (∀ a, a ≠ txA.«from» →
      mget (blockA.addTransaction txA).2.nextNonce a = mget blockA.nextNonce a)) :=
  ⟨by decide, C7_nextNonce_increment blockA txA (by decide)⟩

/-- C4: every ledger operation preserves non-negativity of all balances in
the map: genesis construction from non-negative starting balances, block
construction from a parent with non-negative balances and non-negative
rewards, addTransaction with non-negative output amounts and fee, and rerun
from such a parent over transactions with non-negative outputs. -/
theorem C4_balances_nonneg_invariant :
    (∀ (hashF : SerBlock → String) (target : Nat) (coinbaseReward : Int)
        (timestamp : Nat) (startingBalances : List (String × Int)),
      (∀ p ∈ startingBalances, 0 ≤ p.2) →
      valsNonneg (makeGenesis hashF target coinbaseReward timestamp startingBalances).balances) ∧
    (∀ (hashF : SerBlock → String) (rewardAddr : Option String) (p : Block)
        (target : Nat) (coinbaseReward : Int) (timestamp : Nat),
      valsNonneg p.balances → 0 ≤ p.totalRewards →
      valsNonneg (Block.make hashF rewardAddr (some p) target coinbaseReward timestamp).balances) ∧
    (∀ (b : Block) (tx : Transaction),
      valsNonneg b.balances → (∀ o ∈ tx.outputs, 0 ≤ o.amount) → 0 ≤ tx.fee →
      valsNonneg (b.addTransaction tx).2.balances) ∧
    (∀ (b prev : Block),
      valsNonneg prev.balances → 0 ≤ prev.totalRewards →
      (∀ q ∈ b.transactions, ∀ o ∈ (q : String × Transaction).2.outputs, 0 ≤ o.amount) →
      valsNonneg (b.rerun prev).2.balances) := by
  refine ⟨?_, ?_, ?_, ?_⟩
  · intro hashF target coinbaseReward timestamp startingBalances hsb
    simp only [makeGenesis, Block.make]
    refine msetFold_nonneg _ _ ?_ hsb
    intro p hp
    simp at hp
  · intro hashF rewardAddr p target coinbaseReward timestamp hb hr
    simp only [Block.make]
    by_cases hsr : strTruthy p.rewardAddr = true
    · simp only [hsr, if_true]
      refine valsNonneg_mset _ _ _ hb ?_
      have := valsNonneg_mgetD p.balances (p.rewardAddr.getD "") hb
      omega
    · simp only [hsr]
      simp only [Bool.not_eq_true] at hsr
      simp [hsr, hb]
  · intro b tx hb ho _hfee
    exact addTransaction_nonneg b tx hb ho
  · intro b prev hb hr htx
    simp only [Block.rerun]
    have hmap : ∀ tx ∈ b.transactions.map (fun q => q.2), ∀ o ∈ tx.outputs, 0 ≤ o.amount := by
      intro tx htm
      obtain ⟨q, hq, hqe⟩ := List.mem_map.mp htm
      rw [← hqe]
      exact htx q hq
    by_cases hsr : strTruthy prev.rewardAddr = true
    · simp only [hsr, if_true]
      refine rerunAdd_nonneg _ _ ?_ hmap
      refine valsNonneg_mset _ _ _ hb ?_
      have := valsNonneg_mgetD prev.balances (prev.rewardAddr.getD "") hb
      simp only [Block.balanceOf]
      omega
    · simp only [hsr]
      simp only [Bool.not_eq_true] at hsr
      simp only [hsr, Bool.false_eq_true, if_false]
      exact rerunAdd_nonneg _ _ hb hmap

/-- Witness for C4: the addTransaction part evaluated on a concrete block
and transaction with non-negative balances, amounts and fee. -/
theorem C4_balances_nonneg_invariant_witness :
    valsNonneg blockA.balances ∧ (∀ o ∈ txA.outputs, 0 ≤ o.amount) ∧ 0 ≤ txA.fee ∧
    valsNonneg (blockA.addTransaction txA).2.balances :=
  ⟨by decide, by decide, by decide,
    C4_balances_nonneg_invariant.2.2.1 blockA txA (by decide) (by decide) (by decide)⟩

/-- C6: for a non-genesis block whose transaction entries are keyed by their
transaction ids (as every block built by addTransaction or deserialisation
is), a successful rerun leaves the serialised form, and hence the block id
under any hash function, unchanged: rerun rebuilds only the derived state,
which is excluded from serialisation, and re-inserts the same transaction
entries in the same order. -/
theorem C6_rerun_preserves_id (hashF : SerBlock → String) (b prev : Block)
    (hng : b.isGenesisBlock = false)
    (hwf : ∀ p ∈ b.transactions, (p : String × Transaction).1 = p.2.id)
    (hs : (b.rerun prev).1 = true) :
    (b.rerun prev).2.serialize = b.serialize ∧
    blockId hashF (b.rerun prev).2 = blockId hashF b := by
  have htr : (b.rerun prev).2.transactions = b.transactions := by
    simp only [Block.rerun] at hs ⊢
    by_cases hsr : strTruthy prev.rewardAddr = true
    · simp only [hsr, if_true] at hs ⊢
      rw [rerunAdd_true_transactions _ _ hs]
      simpa using map_values_id _ hwf
    · simp only [hsr, Bool.false_eq_true, if_false] at hs ⊢
      rw [rerunAdd_true_transactions _ _ hs]
      simpa using map_values_id _ hwf
  have hhd : blockHeader (b.rerun prev).2 = blockHeader b := by
    simp only [Block.rerun]
    by_cases hsr : strTruthy prev.rewardAddr = true
    · simp only [hsr, if_true]
      rw [rerunAdd_header]
      rfl
    · simp only [hsr, Bool.false_eq_true, if_false]
      rw [rerunAdd_header]
      rfl
  obtain ⟨e1, e2, e3, e4, e5, e6, e7⟩ :
      (b.rerun prev).2.chainLength = b.chainLength ∧
      (b.rerun prev).2.timestamp = b.timestamp ∧
      (b.rerun prev).2.prevBlockHash = b.prevBlockHash ∧
      (b.rerun prev).2.proof = b.proof ∧
      (b.rerun prev).2.rewardAddr = b.rewardAddr ∧
      (b.rerun prev).2.coinbaseReward = b.coinbaseReward ∧
      (b.rerun prev).2.target = b.target := by
    simpa [blockHeader, Prod.ext_iff] using hhd
  have hg2 : (b.rerun prev).2.isGenesisBlock = false := by
    simp only [Block.isGenesisBlock] at hng ⊢
    rw [e1]
    exact hng
  have hser : (b.rerun prev).2.serialize = b.serialize := by
    simp only [Block.serialize, hg2, hng, Bool.false_eq_true, if_false]
    rw [e1, e2, e3, e4, e5, htr]
  exact ⟨hser, by simp only [blockId, hser]⟩

/-- Witness for C6: a concrete non-genesis block with one transaction,
rerun against a concrete parent. -/
theorem C6_rerun_preserves_id_witness :
    blockB.isGenesisBlock = false ∧ (blockB.rerun blockG).1 = true ∧
    ((blockB.rerun blockG).2.serialize = blockB.serialize ∧
      blockId (fun _ => "") (blockB.rerun blockG).2 = blockId (fun _ => "") blockB) :=
  ⟨by decide, by decide,
    C6_rerun_preserves_id (fun _ => "") blockB blockG (by decide) (by decide) (by decide)⟩

theorem findProofLoop_bounds (hasValid : Int → Bool) (pausePoint : Int) :
    ∀ (n : Nat) (proof : Int), (pausePoint - proof).toNat = n →
      (findProofLoop hasValid pausePoint proof).2 ≤ n ∧
      (findProofLoop hasValid pausePoint proof).1 ≤ proof + (n : Int) := by
  intro n
  induction n with
  | zero =>
    intro proof hn
    have hnp : ¬ proof < pausePoint := by omega
    unfold findProofLoop
    simp [hnp]
  | succ k ih =>
    intro proof hn
    by_cases hp : proof < pausePoint
    · unfold findProofLoop
      simp only [hp, dite_true, dif_pos]
      by_cases hv : hasValid proof = true
      · simp only [hv, if_true]
        constructor
        · omega
        · omega
      · simp only [hv, Bool.false_eq_true, if_false]
        have hih := ih (proof + 1) (by omega)
        constructor
        · omega
        · omega
    · unfold findProofLoop
      simp only [hp, dite_false, dif_neg, not_false_iff]
      constructor
      · omega
      · omega

/-- C8: one invocation of Miner.findProof evaluates hasValidProof at most
miningRounds times, advances the proof counter by at most miningRounds, and
schedules the next START_MINING exactly when oneAndDone is unset. -/
theorem C8_findProof_bounded (hasValid : Int → Bool) (miningRounds : Nat)
    (proof : Int) (oneAndDone : Bool) :
    (Miner.findProof hasValid miningRounds proof oneAndDone).hashEvals ≤ miningRounds ∧
    (Miner.findProof hasValid miningRounds proof oneAndDone).finalProof ≤
      proof + (miningRounds : Int) ∧
    (Miner.findProof hasValid miningRounds proof oneAndDone).schedulesNextMining =
      !oneAndDone := by
  have h := findProofLoop_bounds hasValid (proof + (miningRounds : Int)) miningRounds proof
    (by omega)
  unfold Miner.findProof
  exact ⟨h.1, h.2, rfl⟩

/-- C9: setGenesisBlock throws when the client already has a starting block
(the error is raised before any mutation, so the chain state is untouched),
succeeds only when lastBlock is unset, and a client initialised with a
starting block therefore rejects every further setGenesisBlock call: the
genesis block can be installed at most once. -/
theorem C9_setGenesisBlock_at_most_once (hashF : SerBlock → String)
    (st : PreClient) (sb sb2 : Block) :
    (st.lastBlock.isSome = true →
      st.setGenesisBlock hashF sb =
        Except.error "Cannot set genesis block for existing blockchain.") ∧
    (∀ st2, st.setGenesisBlock hashF sb = Except.ok st2 →
      st.lastBlock = none ∧
      st2.setGenesisBlock hashF sb2 =
        Except.error "Cannot set genesis block for existing blockchain.") ∧
    (PreClient.init hashF (some sb)).setGenesisBlock hashF sb2 =
      Except.error "Cannot set genesis block for existing blockchain." := by
  refine ⟨?_, ?_, ?_⟩
  · intro h
    simp [PreClient.setGenesisBlock, h]
  · intro st2 h
    cases hl : st.lastBlock.isSome with
    | true => simp [PreClient.setGenesisBlock, hl] at h
    | false =>
      simp only [PreClient.setGenesisBlock, hl, Bool.false_eq_true, if_false] at h
      constructor
      · cases hlb : st.lastBlock with
        | none => rfl
        | some b0 => rw [hlb] at hl; simp at hl
      · cases h
        simp [PreClient.setGenesisBlock]
  · simp [PreClient.init, PreClient.setGenesisBlock]

/-- Witness for C9 on a concrete client whose starting block is set. -/
theorem C9_setGenesisBlock_at_most_once_witness :
    preC.lastBlock.isSome = true ∧
    preC.setGenesisBlock (fun _ => "h") blockA =
      Except.error "Cannot set genesis block for existing blockchain." :=
  ⟨by decide,
    (C9_setGenesisBlock_at_most_once (fun _ => "h") preC blockA blockA).1 (by decide)⟩

theorem mget_mem {κ β : Type} [DecidableEq κ] (m : List (κ × β)) (k : κ) (v : β)
    (h : mget m k = some v) : (k, v) ∈ m := by
  induction m with
  | nil => simp [mget] at h
  | cons p rest ih =>
    by_cases hp : p.1 = k
    · simp only [mget, hp, if_pos, ite_true, Option.some.injEq] at h
      have hpe : p = (k, v) := by
        obtain ⟨p1, p2⟩ := p
        simp only at hp h
        rw [hp, h]
      rw [← hpe]
      exact List.mem_cons_self _ _
    · simp only [mget, hp, ite_false, if_neg, not_false_iff] at h
      exact List.mem_cons_of_mem _ (ih h)

/-- C10: FakeNet.broadcast invokes sendMessage once per registered address
with no exclusion of the sender: the recipient list is exactly the list of
registered addresses, so any registered participant, the sender included,
receives its own broadcasts; in particular a registered miner receives its
own PROOF_FOUND announcement. -/
theorem C10_broadcast_includes_sender {γ δ : Type} (net : FakeNet γ) (msg : String)
    (o : δ) (blk : Block) :
    (net.broadcast msg o).map (fun t => t.1) = net.clients.map (fun p => p.1) ∧
    (∀ a g, mget net.clients a = some g → (a, msg, o) ∈ net.broadcast msg o) ∧
    (∀ a g, mget net.clients a = some g →
      (a, PROOF_FOUND, blk) ∈ Miner.announceProof net blk) := by
  refine ⟨?_, ?_, ?_⟩
  · simp [FakeNet.broadcast]
  · intro a g h
    exact List.mem_map.mpr ⟨(a, g), mget_mem _ _ _ h, rfl⟩
  · intro a g h
    exact List.mem_map.mpr ⟨(a, g), mget_mem _ _ _ h, rfl⟩

/-- Witness for C10: a registered miner address receives its own PROOF_FOUND
broadcast on a concrete network. -/
theorem C10_broadcast_includes_sender_witness :
    mget netC.clients "minnie" = some 2 ∧
    ("minnie", PROOF_FOUND, blockG) ∈ Miner.announceProof netC blockG :=
  ⟨by decide,
    (C10_broadcast_includes_sender netC POST_TRANSACTION (0 : Nat) blockG).2.2
      "minnie" 2 (by decide)⟩

theorem setLastConfirmed_lastBlock (st : ClientState) :
    st.setLastConfirmed.lastBlock = st.lastBlock := by
  unfold ClientState.setLastConfirmed
  cases h : walkBack st.blocks (st.lastBlock.chainLength - CONFIRMED_DEPTH)
      st.lastBlock.chainLength st.lastBlock <;> simp [h]

theorem setLastConfirmed_pendingBlocks (st : ClientState) :
    st.setLastConfirmed.pendingBlocks = st.pendingBlocks := by
  unfold ClientState.setLastConfirmed
  cases h : walkBack st.blocks (st.lastBlock.chainLength - CONFIRMED_DEPTH)
      st.lastBlock.chainLength st.lastBlock <;> simp [h]

theorem rerun_chainLength (b prev : Block) :
    (b.rerun prev).2.chainLength = b.chainLength := by
  simp only [Block.rerun]
  by_cases hsr : strTruthy prev.rewardAddr = true
  · simp only [hsr, if_true]
    exact congrArg (fun t => t.1) (rerunAdd_header _ _)
  · simp only [hsr, Bool.false_eq_true, if_false]
    exact congrArg (fun t => t.1) (rerunAdd_header _ _)

/-- C3: when a received block is accepted (fresh id, valid proof or genesis,
parent known with a successful rerun, and no blocks were queued waiting for
it), the participant's head becomes the accepted block exactly when its
chain length strictly exceeds the current head's; a block of equal chain
length never replaces the head. -/
theorem C3_receiveBlock_longest_chain (hashF : SerBlock → String)
    (validProof : Block → Bool) (st : ClientState) (b b2 : Block) (fuel : Nat)
    (hnew : mget st.blocks (blockId hashF b) = none)
    (hvp : (validProof b || b.isGenesisBlock) = true)
    (hacc : (if b.isGenesisBlock then some b
             else (b.prevBlockHash.bind (fun h => mget st.blocks h)).bind
               (fun p => if (b.rerun p).1 = true then some (b.rerun p).2 else none))
        = some b2)
    (hnopend : mget st.pendingBlocks (some (blockId hashF b2)) = none) :
    (receiveBlockF hashF validProof (fuel + 1) st b).1 = some b2 ∧
    (receiveBlockF hashF validProof (fuel + 1) st b).2.lastBlock =
      (if st.lastBlock.chainLength < b.chainLength then b2 else st.lastBlock) := by
  by_cases hg : b.isGenesisBlock = true
  · rw [if_pos hg] at hacc
    have hb2 : b = b2 := by simpa using hacc
    subst hb2
    cases hpb : b.prevBlockHash.bind (fun h => mget st.blocks h) with
    | none =>
      by_cases hc : st.lastBlock.chainLength < b.chainLength <;>
        simp [receiveBlockF, hnew, hpb, hg, hc, hnopend,
          setLastConfirmed_pendingBlocks, setLastConfirmed_lastBlock]
    | some p =>
      by_cases hc : st.lastBlock.chainLength < b.chainLength <;>
        simp [receiveBlockF, hnew, hpb, hg, hc, hnopend,
          setLastConfirmed_pendingBlocks, setLastConfirmed_lastBlock]
  · have hgf : b.isGenesisBlock = false := by
      cases hgv : b.isGenesisBlock with
      | false => rfl
      | true => exact absurd hgv hg
    have hv : validProof b = true := by
      rw [hgf] at hvp
      simpa using hvp
    rw [if_neg (by rw [hgf]; exact Bool.false_ne_true)] at hacc
    cases hpb : b.prevBlockHash.bind (fun h => mget st.blocks h) with
    | none => rw [hpb] at hacc; simp at hacc
    | some p =>
      rw [hpb] at hacc
      cases hrr : (b.rerun p).1 with
      | false => simp [hrr] at hacc
      | true =>
        simp only [Option.some_bind, hrr, if_true] at hacc
        have hb2 : (b.rerun p).2 = b2 := by simpa using hacc
        have hcl : b2.chainLength = b.chainLength := by
          rw [← hb2]; exact rerun_chainLength b p
        by_cases hc : st.lastBlock.chainLength < b.chainLength <;>
          simp [receiveBlockF, hnew, hv, hpb, hgf, hrr, hb2, hcl, hc, hnopend,
            setLastConfirmed_pendingBlocks, setLastConfirmed_lastBlock]

/-- Witness for C3: a concrete genesis block received by a client whose head
already has an equal chain length; the head does not change. -/
theorem C3_receiveBlock_longest_chain_witness :
    mget stC.blocks (blockId (fun _ => "h") blockG) = none ∧
    ((fun _ => false : Block → Bool) blockG || blockG.isGenesisBlock) = true ∧
    (receiveBlockF (fun _ => "h") (fun _ => false) 1 stC blockG).1 = some blockG ∧
    (receiveBlockF (fun _ => "h") (fun _ => false) 1 stC blockG).2.lastBlock =
      (if stC.lastBlock.chainLength < blockG.chainLength then blockG else stC.lastBlock) := by
  refine ⟨by decide, by decide, ?_⟩
  exact C3_receiveBlock_longest_chain (fun _ => "h") (fun _ => false) stC blockG blockG 0
    (by decide) (by decide) (by decide) (by decide)

end SpartanGold
